import Mathlib

/-!
# Verification of the tactic-matching and metric-computation pipeline

A shallow embedding, in Lean 4, of the core of the `tactics` repository:

* the Metric Scorer (`evaluate`, `dcg_fn`, `avg_fn` from `metrics.py`),
* the Position Encoder / Decoder (`fen_to_contents`, `convert_pos_to_board`
  from `util.py`),
* the Tactic Matcher (`get_tactic_match` from `metrics.py`), with the
  logic-engine database modelled as an explicit clause list,
* the per-rule metric loop (`calc_metrics` from `metrics.py`).

Python floats are modelled as real numbers, Python ints as `Int`/`Nat`.
External collaborators (the SWI-Prolog query itself, the chess engine) are
modelled as explicit inputs: the query's outcome and the engine's evaluations
are parameters of the embedded functions, while all of the repository's own
bookkeeping (assert/retract, zipping, fold over pairs, accumulator updates)
is translated line by line.
-/

namespace Tactics

/-- A chess move, as built by `get_tactic_match` via `chess.Move(from_sq, to_sq)`:
source and destination square indices in 0..63 (a1 = 0, h8 = 63). -/
structure Move where
  fromSq : Nat
  toSq : Nat
  deriving DecidableEq, Repr

/-! ## Metric Scorer (`evaluate` from `metrics.py`)

`evaluate` walks `zip(evaluated_suggestions, top_moves)` with `enumerate`,
takes `error = abs(top_eval - eval)` for each pair, and executes
`metric = metric_fn(idx, error)` — an assignment, not an accumulation.
Engine `chess.engine.Score` values enter `evaluate` only through
`score.score(mate_score=2000)`, which yields a plain integer; each list
entry is therefore modelled as that integer paired with its move. -/

/-- `evaluate(evaluated_suggestions, top_moves, metric_fn)` from `metrics.py`:
`metric` starts at `0`; for each `(idx, (evaluated_move, top_move))` of the
enumerated zip, `error = abs(top_eval - eval)` and `metric = metric_fn(idx, error)`
(the loop body overwrites `metric`). -/
noncomputable def evaluate (evaluatedSuggestions topMoves : List (Int × Move))
    (metricFn : Nat → Int → ℝ) : ℝ :=
  ((evaluatedSuggestions.zip topMoves).enum).foldl
    (fun _metric p => metricFn p.1 |p.2.2.1 - p.2.1.1|) 0

/-- The `dcg_fn` lambda of `calc_metrics`: `error / math.log2(1 + (idx + 1))`. -/
noncomputable def dcg_fn (idx : Nat) (error : Int) : ℝ :=
  (error : ℝ) / Real.logb 2 (1 + ((idx : ℝ) + 1))

/-- The `avg_fn` lambda of `calc_metrics`: `lambda _, error: error`. -/
noncomputable def avg_fn (_idx : Nat) (error : Int) : ℝ := (error : ℝ)

/-- The rank-discounted divergence as the spec words it: the SUM over all
pairs `i` (0-based) of `|oracleScore_i - suggestedScore_i| / log2(1 + (i + 1))`.
Written from the spec's sentence, to be compared with `evaluate _ _ dcg_fn`. -/
noncomputable def specRankDiscounted (evaluatedSuggestions topMoves : List (Int × Move)) : ℝ :=
  (((evaluatedSuggestions.zip topMoves).enum).map
    (fun p => dcg_fn p.1 |p.2.2.1 - p.2.1.1|)).sum

/-- The average divergence as the spec words it: the sum of per-pair absolute
errors divided by the number of oracle moves considered. Written from the
spec's sentence, to be compared with `evaluate _ _ avg_fn`. -/
noncomputable def specAverage (evaluatedSuggestions topMoves : List (Int × Move)) : ℝ :=
  (((evaluatedSuggestions.zip topMoves)).map
    (fun p => ((|p.2.1 - p.1.1| : Int) : ℝ))).sum / (topMoves.length : ℝ)

/-- A fold whose body ignores the accumulator returns the image of the last
element (or the unchanged accumulator on an empty list). -/
theorem foldl_overwrite {α β : Type _} (g : α → β) :
    ∀ (l : List α) (init : β), l.foldl (fun _ x => g x) init = l.getLast?.elim init g := by
  intro l
  induction l with
  | nil => intro init; rfl
  | cons a l ih =>
    intro init
    rw [List.foldl_cons, ih (g a)]
    cases l with
    | nil => rfl
    | cons b l => rw [List.getLast?_cons_cons]; rfl

/-- An accumulator-ignoring fold over `List.enumFrom n l` returns the image of
the last element of `l` together with its index `n + l.length - 1`. -/
theorem foldl_overwrite_enumFrom {α β : Type _} (g : Nat × α → β) :
    ∀ (l : List α) (n : Nat) (init : β),
      (List.enumFrom n l).foldl (fun _ x => g x) init =
        l.getLast?.elim init (fun a => g (n + (l.length - 1), a)) := by
  intro l
  induction l with
  | nil => intro n init; rfl
  | cons a l ih =>
    intro n init
    rw [show List.enumFrom n (a :: l) = (n, a) :: List.enumFrom (n + 1) l from rfl,
      List.foldl_cons, ih (n + 1) (g (n, a))]
    cases l with
    | nil => rfl
    | cons b l =>
      rw [List.getLast?_cons_cons]
      cases h : (b :: l).getLast? with
      | none => simp at h
      | some x =>
        simp only [Option.elim_some]
        have : n + 1 + ((b :: l).length - 1) = n + ((a :: b :: l).length - 1) := by
          simp only [List.length_cons]; omega
        rw [this]

/-- What `evaluate` actually returns: `metric_fn` applied to the index and
error of the LAST compared pair, `0` when no pair is compared. -/
theorem evaluate_eq_last (es ts : List (Int × Move)) (f : Nat → Int → ℝ) :
    evaluate es ts f =
      ((es.zip ts).getLast?).elim 0
        (fun p => f ((es.zip ts).length - 1) |p.2.1 - p.1.1|) := by
  unfold evaluate
  rw [List.enum, foldl_overwrite_enumFrom]
  cases h : (es.zip ts).getLast? with
  | none => rfl
  | some p => simp

/-- `zip` only ever pairs the common prefix: zipping two lists equals zipping
their truncations to the shorter length. -/
theorem zip_take_min {α β : Type _} :
    ∀ (es : List α) (ts : List β),
      es.zip ts = (es.take (min es.length ts.length)).zip (ts.take (min es.length ts.length)) := by
  intro es
  induction es with
  | nil => intro ts; simp
  | cons a es ih =>
    intro ts
    cases ts with
    | nil => simp
    | cons b ts =>
      simp only [List.zip_cons_cons, List.length_cons, Nat.succ_min_succ, List.take_succ_cons]
      rw [ih ts]

/-- Exchange the entries at positions `i` and `j` of a list (the list is
returned unchanged when either index is out of range). -/
def swapAt {α : Type _} (l : List α) (i j : Nat) : List α :=
  match l.get? i, l.get? j with
  | some a, some b => (l.set i b).set j a
  | _, _ => l

/-- `swapAt` preserves the length of the list. -/
theorem swapAt_length {α : Type _} (l : List α) (i j : Nat) :
    (swapAt l i j).length = l.length := by
  unfold swapAt
  cases l.get? i <;> cases l.get? j <;> simp [List.length_set]

/-- C7: the scorer pairs the i-th suggested move with the i-th oracle move for
`i` in `0 .. min(len(suggested), len(oracle)) - 1`: the zip forms exactly
`min` pairs, and truncating both lists to the shorter length changes neither
metric, so entries beyond the shorter list's length contribute nothing. -/
theorem evaluate_pairs_positionally (es ts : List (Int × Move)) (f : Nat → Int → ℝ) :
    (es.zip ts).length = min es.length ts.length ∧
    evaluate es ts f =
      evaluate (es.take (min es.length ts.length)) (ts.take (min es.length ts.length)) f := by
  refine ⟨List.length_zip es ts, ?_⟩
  unfold evaluate
  rw [← zip_take_min]

/-- C9 (counterexample): calling the scorer with a non-empty suggested-move
list and zero oracle moves is NOT an error: both metrics are simply `0`
(the zip is empty, so the metric function is never applied and no division
happens). -/
theorem evaluate_empty_oracle_defined :
    evaluate [((5 : Int), ⟨12, 28⟩)] [] avg_fn = 0 ∧
      evaluate [((5 : Int), ⟨12, 28⟩)] [] dcg_fn = 0 := by
  constructor <;> · rw [evaluate_eq_last]; rfl

/-- C9 (amended): with zero oracle moves the scorer returns `0` for every
metric function; there is no division by zero and no precondition on callers. -/
theorem evaluate_empty_oracle (es : List (Int × Move)) (f : Nat → Int → ℝ) :
    evaluate es [] f = 0 := by
  rw [evaluate_eq_last, List.zip_nil_right]
  rfl

/-- C2 (code bug): `evaluate` with the `dcg_fn` metric does not return the
sum over pairs of `error / log2(1 + (rank + 1))`; the loop body overwrites the
accumulator, so only the LAST pair's term survives. On suggested evaluations
`[0, 0]` against oracle evaluations `[1, 0]` the code returns `0`, while the
spec's sum is `1 / log2 2 = 1`. -/
theorem evaluate_dcg_is_not_the_sum :
    evaluate [((0 : Int), ⟨12, 28⟩), ((0 : Int), ⟨12, 28⟩)]
        [((1 : Int), ⟨8, 16⟩), ((0 : Int), ⟨9, 17⟩)] dcg_fn = 0 ∧
    specRankDiscounted [((0 : Int), ⟨12, 28⟩), ((0 : Int), ⟨12, 28⟩)]
        [((1 : Int), ⟨8, 16⟩), ((0 : Int), ⟨9, 17⟩)] = 1 ∧
    (0 : ℝ) ≠ 1 := by
  have h2 : Real.logb 2 2 = 1 := Real.logb_self_eq_one (by norm_num)
  refine ⟨?_, ?_, by norm_num⟩
  · rw [evaluate_eq_last]
    simp [dcg_fn]
  · simp only [specRankDiscounted, List.zip_cons_cons, List.zip_nil_right, List.enum,
      List.enumFrom, List.map_cons, List.map_nil, List.sum_cons, List.sum_nil, dcg_fn]
    norm_num [h2]

/-- C3 (counterexample): `evaluate` with the `avg_fn` metric does not return
the mean of the per-pair errors over the number of oracle moves: on suggested
evaluations `[0, 0]` against oracle evaluations `[1, 3]` the code returns the
last error `3`, while the spec's mean is `(1 + 3) / 2 = 2`. -/
theorem evaluate_avg_is_not_the_mean :
    evaluate [((0 : Int), ⟨12, 28⟩), ((0 : Int), ⟨12, 28⟩)]
        [((1 : Int), ⟨8, 16⟩), ((3 : Int), ⟨9, 17⟩)] avg_fn = 3 ∧
    specAverage [((0 : Int), ⟨12, 28⟩), ((0 : Int), ⟨12, 28⟩)]
        [((1 : Int), ⟨8, 16⟩), ((3 : Int), ⟨9, 17⟩)] = 2 ∧
    (3 : ℝ) ≠ 2 := by
  refine ⟨?_, ?_, by norm_num⟩
  · rw [evaluate_eq_last]
    simp [avg_fn]
  · simp only [specAverage, List.zip_cons_cons, List.zip_nil_right, List.map_cons,
      List.map_nil, List.sum_cons, List.sum_nil, List.length_cons, List.length_nil]
    norm_num

/-- C3 (amended): the average divergence returned by the scorer equals the
absolute error of the LAST compared pair (`0` when no pair is compared); no
sum is taken and no division is performed. -/
theorem evaluate_avg_eq_last_error (es ts : List (Int × Move)) :
    evaluate es ts avg_fn =
      ((es.zip ts).getLast?).elim 0 (fun p => ((|p.2.1 - p.1.1| : Int) : ℝ)) := by
  rw [evaluate_eq_last]
  rfl

/-- C8 (counterexample): swapping two suggested-move evaluations CAN change
the average divergence: with suggested evaluations `[0, 4]` against oracle
evaluations `[5, 5]`, the average is the last error `|5 - 4| = 1`, and after
swapping ranks 0 and 1 it is `|5 - 0| = 5`. -/
theorem swap_changes_the_average :
    evaluate (swapAt [((0 : Int), ⟨0, 0⟩), ((4 : Int), ⟨1, 1⟩)] 0 1)
        [((5 : Int), ⟨2, 2⟩), ((5 : Int), ⟨3, 3⟩)] avg_fn = 5 ∧
    evaluate [((0 : Int), ⟨0, 0⟩), ((4 : Int), ⟨1, 1⟩)]
        [((5 : Int), ⟨2, 2⟩), ((5 : Int), ⟨3, 3⟩)] avg_fn = 1 ∧
    (5 : ℝ) ≠ 1 := by
  have hs : swapAt [((0 : Int), Move.mk 0 0), ((4 : Int), Move.mk 1 1)] 0 1 =
      [((4 : Int), Move.mk 1 1), ((0 : Int), Move.mk 0 0)] := rfl
  refine ⟨?_, ?_, by norm_num⟩
  · rw [hs, evaluate_eq_last]
    norm_num [avg_fn]
  · rw [evaluate_eq_last]
    norm_num [avg_fn]

/-- C8 (amended): because the scorer keeps only the last compared pair's term,
a swap of two suggested-move evaluations changes the rank-discounted
divergence IF AND ONLY IF it changes the average divergence (the
rank-discounted value is the average value divided by the fixed positive
constant `log2(1 + number of compared pairs)`). -/
theorem swap_changes_dcg_iff_avg (es ts : List (Int × Move)) (i j : Nat) :
    evaluate (swapAt es i j) ts dcg_fn ≠ evaluate es ts dcg_fn ↔
      evaluate (swapAt es i j) ts avg_fn ≠ evaluate es ts avg_fn := by
  have hlen : ((swapAt es i j).zip ts).length = (es.zip ts).length := by
    rw [List.length_zip, List.length_zip, swapAt_length]
  rw [evaluate_eq_last, evaluate_eq_last, evaluate_eq_last, evaluate_eq_last, hlen]
  cases h1 : (es.zip ts).getLast? with
  | none =>
    have hnil : es.zip ts = [] := List.getLast?_eq_none_iff.mp h1
    have hnil' : (swapAt es i j).zip ts = [] := by
      have h0 : ((swapAt es i j).zip ts).length = 0 := by rw [hlen, hnil]; rfl
      exact List.length_eq_zero.mp h0
    rw [hnil']
    simp
  | some p =>
    have hne' : (swapAt es i j).zip ts ≠ [] := by
      intro h
      rw [h] at hlen
      have hnil : es.zip ts = [] := List.length_eq_zero.mp (by simpa using hlen.symm)
      rw [hnil] at h1
      exact Option.noConfusion h1
    cases h2 : ((swapAt es i j).zip ts).getLast? with
    | none => exact absurd (List.getLast?_eq_none_iff.mp h2) hne'
    | some q =>
      simp only [Option.elim_some]
      unfold dcg_fn avg_fn
      have hL : 0 < Real.logb 2 (1 + ((((es.zip ts).length - 1 : ℕ) : ℝ) + 1)) := by
        apply Real.logb_pos one_lt_two
        have hc : (0 : ℝ) ≤ (((es.zip ts).length - 1 : ℕ) : ℝ) := Nat.cast_nonneg _
        linarith
      rw [not_iff_not]
      exact div_left_inj' (ne_of_gt hL)

/-! ## Position Encoder / Decoder (`fen_to_contents`, `convert_pos_to_board` from `util.py`)

A board position is modelled by its observable content: piece occupancy on the
64 squares (a1 = 0, …, h8 = 63, as in `chess.SQUARES`), the side to move
(`true` = white, `chess.WHITE`), and the four castling-rights flags that
`board.has_kingside_castling_rights` / `has_queenside_castling_rights` report
and that `convert_pos_to_board` sets through `castling_rights |= BB_H1` /
`BB_A1` / `BB_H8` / `BB_A8`. The source's `fen_to_contents` renders each
predicate as a string and the Prolog engine parses the strings back into
functor terms for `convert_pos_to_board`; the facts are kept in structured
form here, with a separate renderer for the Matcher below. -/

/-- `chess.PieceType`: the six chess piece kinds. -/
inductive PieceType where
  | pawn
  | knight
  | bishop
  | rook
  | queen
  | king
  deriving DecidableEq, Repr

/-- `chess.piece_name`: the lowercase name of a piece type. -/
def piece_name : PieceType → String
  | .pawn => "pawn"
  | .knight => "knight"
  | .bishop => "bishop"
  | .rook => "rook"
  | .queen => "queen"
  | .king => "king"

/-- Python's `str.lower`, written out at the character level. -/
def str_lower (s : String) : String :=
  ⟨s.data.map Char.toLower⟩

/-- `parse_piece` from `util.py`: lowercases the name and walks an if-chain
over the six piece names; any other name falls off the chain (Python returns
`None`). -/
def parse_piece (name : String) : Option PieceType :=
  let name := str_lower name
  if name = "pawn" then some .pawn
  else if name = "knight" then some .knight
  else if name = "bishop" then some .bishop
  else if name = "rook" then some .rook
  else if name = "queen" then some .queen
  else if name = "king" then some .king
  else none

/-- `chess.Piece`: a piece type together with a color (`true` = white). -/
structure Piece where
  piece_type : PieceType
  color : Bool
  deriving DecidableEq, Repr

/-- The `isinstance(side, bool)` branch of `convert_side` from `util.py`:
`'white' if side == chess.WHITE else 'black'`. -/
def convert_side (side : Bool) : String :=
  if side then "white" else "black"

/-- The `isinstance(side, str)` branch of `convert_side` from `util.py`:
`chess.WHITE if side == 'white' else chess.BLACK`. -/
def convert_side_to_bool (side : String) : Bool :=
  side = "white"

/-- A parsed Prolog atom of the position list: the four predicate shapes
`fen_to_contents` emits and `convert_pos_to_board` consumes. -/
inductive Fact where
  | contents (side piece : String) (col row : Nat)
  | turn (side : String)
  | kingside_castle (side : String)
  | queenside_castle (side : String)
  deriving DecidableEq, Repr

/-- A board state: occupancy, side to move, four castling-rights flags. -/
structure Board where
  pieceAt : Fin 64 → Option Piece
  turn : Bool
  castleWK : Bool
  castleWQ : Bool
  castleBK : Bool
  castleBQ : Bool

/-- `fen_to_contents` from `util.py`, at the level of the facts it renders:
one `contents(color, piece_name, col, row)` per occupied square in square
order 0..63 with `col = file + 1`, `row = rank + 1` (`file = square % 8`,
`rank = square // 8`); then exactly one `turn` fact; then one castling fact
per held right, in the order white kingside, white queenside, black kingside,
black queenside. -/
def fen_to_contents (board : Board) : List Fact :=
  let board_str_list := (List.finRange 64).filterMap (fun square =>
    (board.pieceAt square).map (fun piece =>
      Fact.contents (convert_side piece.color) (piece_name piece.piece_type)
        (square.val % 8 + 1) (square.val / 8 + 1)))
  let board_str_list := board_str_list ++ [Fact.turn (convert_side board.turn)]
  let castling_preds :=
    (if board.castleWK then [Fact.kingside_castle "white"] else []) ++
    (if board.castleWQ then [Fact.queenside_castle "white"] else []) ++
    (if board.castleBK then [Fact.kingside_castle "black"] else []) ++
    (if board.castleBQ then [Fact.queenside_castle "black"] else [])
  board_str_list ++ castling_preds

/-- `chess.Board(None)`: an empty board, white to move, no castling rights. -/
def emptyBoard : Board where
  pieceAt := fun _ => none
  turn := true
  castleWK := false
  castleWQ := false
  castleBK := false
  castleBQ := false

/-- `board.set_piece_at(square, piece)`: update one square's occupancy (the
source library indexes a 64-entry bitboard table, so squares outside 0..63
are out of the modelled domain and leave the board unchanged here). -/
def set_piece_at (b : Board) (square : Nat) (piece : Piece) : Board :=
  if h : square < 64 then
    { b with pieceAt := fun sq => if sq = ⟨square, h⟩ then some piece else b.pieceAt sq }
  else b

/-- The body of `convert_pos_to_board`'s loop in `util.py`, applied to one
predicate: `contents` places a piece at `chess.square(file - 1, rank - 1)`
(i.e. `(rank - 1) * 8 + (file - 1)`), `turn` sets the side to move, and the
castling predicates OR the corresponding right into `castling_rights`
(modelled as the four flags). A `contents` fact whose piece name is not one
of the six (where `parse_piece` returns `None` and the source would build an
invalid piece) leaves the board unchanged; an unknown predicate only logs. -/
def apply_fact (b : Board) (f : Fact) : Board :=
  match f with
  | .contents side piece col row =>
    match parse_piece piece with
    | some pt => set_piece_at b ((row - 1) * 8 + (col - 1)) ⟨pt, convert_side_to_bool side⟩
    | none => b
  | .turn side => { b with turn := convert_side_to_bool side }
  | .kingside_castle side =>
    if convert_side_to_bool side then { b with castleWK := true } else { b with castleBK := true }
  | .queenside_castle side =>
    if convert_side_to_bool side then { b with castleWQ := true } else { b with castleBQ := true }

/-- `convert_pos_to_board` from `util.py`: fold the predicates over
`chess.Board(None)`. -/
def convert_pos_to_board (pos : List Fact) : Board :=
  pos.foldl apply_fact emptyBoard

/-- The standard opening position: white pieces on ranks 1–2, black pieces on
ranks 7–8, white to move, all four castling rights held. -/
def stdBoard : Board where
  pieceAt := fun sq =>
    let r := sq.val / 8
    let f := sq.val % 8
    if r = 1 then some ⟨.pawn, true⟩
    else if r = 6 then some ⟨.pawn, false⟩
    else if r = 0 ∨ r = 7 then
      (if f = 0 ∨ f = 7 then some ⟨.rook, r == 0⟩
       else if f = 1 ∨ f = 6 then some ⟨.knight, r == 0⟩
       else if f = 2 ∨ f = 5 then some ⟨.bishop, r == 0⟩
       else if f = 3 then some ⟨.queen, r == 0⟩
       else some ⟨.king, r == 0⟩)
    else none
  turn := true
  castleWK := true
  castleWQ := true
  castleBK := true
  castleBQ := true

/-! ### What one fact observably writes -/

/-- The side named by a `turn` fact, `none` for any other predicate. -/
def fact_turn_side : Fact → Option String
  | .turn s => some s
  | _ => none

/-- The piece a fact writes onto square `sq` when applied, `none` when the
fact leaves `sq` alone. -/
def fact_sets (sq : Fin 64) : Fact → Option Piece
  | .contents side piece col row =>
    match parse_piece piece with
    | some pt =>
      if (row - 1) * 8 + (col - 1) = sq.val then some ⟨pt, convert_side_to_bool side⟩ else none
    | none => none
  | _ => none

/-- Whether a fact sets the white kingside castling flag. -/
def sets_wk : Fact → Bool
  | .kingside_castle s => convert_side_to_bool s
  | _ => false

/-- Whether a fact sets the white queenside castling flag. -/
def sets_wq : Fact → Bool
  | .queenside_castle s => convert_side_to_bool s
  | _ => false

/-- Whether a fact sets the black kingside castling flag. -/
def sets_bk : Fact → Bool
  | .kingside_castle s => !convert_side_to_bool s
  | _ => false

/-- Whether a fact sets the black queenside castling flag. -/
def sets_bq : Fact → Bool
  | .queenside_castle s => !convert_side_to_bool s
  | _ => false

theorem apply_fact_turn (b : Board) (f : Fact) :
    (apply_fact b f).turn = (fact_turn_side f).elim b.turn convert_side_to_bool := by
  cases f with
  | contents side piece col row =>
    simp only [apply_fact, fact_turn_side]
    cases parse_piece piece with
    | none => rfl
    | some pt =>
      simp only [set_piece_at]
      split <;> rfl
  | turn s => rfl
  | kingside_castle s =>
    simp only [apply_fact, fact_turn_side]
    split <;> rfl
  | queenside_castle s =>
    simp only [apply_fact, fact_turn_side]
    split <;> rfl

theorem apply_fact_pieceAt (b : Board) (f : Fact) (sq : Fin 64) :
    (apply_fact b f).pieceAt sq = (fact_sets sq f).elim (b.pieceAt sq) some := by
  cases f with
  | contents side piece col row =>
    simp only [apply_fact, fact_sets]
    cases parse_piece piece with
    | none => rfl
    | some pt =>
      simp only [set_piece_at]
      by_cases htgt : (row - 1) * 8 + (col - 1) < 64
      · simp only [dif_pos htgt]
        by_cases heq : (row - 1) * 8 + (col - 1) = sq.val
        · have hsq : sq = ⟨(row - 1) * 8 + (col - 1), htgt⟩ := by
            apply Fin.ext
            exact heq.symm
          rw [if_pos heq, if_pos hsq]
          rfl
        · have hsq : ¬sq = ⟨(row - 1) * 8 + (col - 1), htgt⟩ := by
            intro h
            exact heq (by rw [h])
          rw [if_neg heq, if_neg hsq]
          rfl
      · have heq : ¬(row - 1) * 8 + (col - 1) = sq.val := by
          have := sq.isLt
          omega
        rw [dif_neg htgt, if_neg heq]
        rfl
  | turn s => rfl
  | kingside_castle s =>
    simp only [apply_fact, fact_sets]
    split <;> rfl
  | queenside_castle s =>
    simp only [apply_fact, fact_sets]
    split <;> rfl

theorem apply_fact_castleWK (b : Board) (f : Fact) :
    (apply_fact b f).castleWK = (b.castleWK || sets_wk f) := by
  cases f with
  | contents side piece col row =>
    simp only [apply_fact, sets_wk, Bool.or_false]
    cases parse_piece piece with
    | none => rfl
    | some pt =>
      simp only [set_piece_at]
      split <;> rfl
  | turn s => simp [apply_fact, sets_wk]
  | kingside_castle s =>
    simp only [apply_fact, sets_wk]
    by_cases h : convert_side_to_bool s = true <;> simp [h]
  | queenside_castle s =>
    simp only [apply_fact, sets_wk, Bool.or_false]
    split <;> rfl

theorem apply_fact_castleWQ (b : Board) (f : Fact) :
    (apply_fact b f).castleWQ = (b.castleWQ || sets_wq f) := by
  cases f with
  | contents side piece col row =>
    simp only [apply_fact, sets_wq, Bool.or_false]
    cases parse_piece piece with
    | none => rfl
    | some pt =>
      simp only [set_piece_at]
      split <;> rfl
  | turn s => simp [apply_fact, sets_wq]
  | queenside_castle s =>
    simp only [apply_fact, sets_wq]
    by_cases h : convert_side_to_bool s = true <;> simp [h]
  | kingside_castle s =>
    simp only [apply_fact, sets_wq, Bool.or_false]
    split <;> rfl

theorem apply_fact_castleBK (b : Board) (f : Fact) :
    (apply_fact b f).castleBK = (b.castleBK || sets_bk f) := by
  cases f with
  | contents side piece col row =>
    simp only [apply_fact, sets_bk, Bool.or_false]
    cases parse_piece piece with
    | none => rfl
    | some pt =>
      simp only [set_piece_at]
      split <;> rfl
  | turn s => simp [apply_fact, sets_bk]
  | kingside_castle s =>
    simp only [apply_fact, sets_bk]
    by_cases h : convert_side_to_bool s = true <;> simp [h]
  | queenside_castle s =>
    simp only [apply_fact, sets_bk, Bool.or_false]
    split <;> rfl

theorem apply_fact_castleBQ (b : Board) (f : Fact) :
    (apply_fact b f).castleBQ = (b.castleBQ || sets_bq f) := by
  cases f with
  | contents side piece col row =>
    simp only [apply_fact, sets_bq, Bool.or_false]
    cases parse_piece piece with
    | none => rfl
    | some pt =>
      simp only [set_piece_at]
      split <;> rfl
  | turn s => simp [apply_fact, sets_bq]
  | queenside_castle s =>
    simp only [apply_fact, sets_bq]
    by_cases h : convert_side_to_bool s = true <;> simp [h]
  | kingside_castle s =>
    simp only [apply_fact, sets_bq, Bool.or_false]
    split <;> rfl

/-! ### Last-write-wins characterization of the decoder over any fact list -/

theorem foldl_turn (l : List Fact) :
    ∀ b0 : Board, (l.foldl apply_fact b0).turn =
      ((l.filterMap fact_turn_side).getLast?).elim b0.turn convert_side_to_bool := by
  induction l using List.reverseRecOn with
  | nil => intro b0; rfl
  | append_singleton l f ih =>
    intro b0
    rw [List.foldl_concat, apply_fact_turn, List.filterMap_append]
    cases hf : fact_turn_side f with
    | none =>
      simp only [List.filterMap_cons, hf, List.filterMap_nil, List.append_nil, Option.elim_none]
      exact ih b0
    | some s =>
      simp only [List.filterMap_cons, hf, List.filterMap_nil, List.getLast?_concat]
      rfl

theorem foldl_pieceAt (sq : Fin 64) (l : List Fact) :
    ∀ b0 : Board, (l.foldl apply_fact b0).pieceAt sq =
      ((l.filterMap (fact_sets sq)).getLast?).elim (b0.pieceAt sq) some := by
  induction l using List.reverseRecOn with
  | nil => intro b0; rfl
  | append_singleton l f ih =>
    intro b0
    rw [List.foldl_concat, apply_fact_pieceAt, List.filterMap_append]
    cases hf : fact_sets sq f with
    | none =>
      simp only [List.filterMap_cons, hf, List.filterMap_nil, List.append_nil, Option.elim_none]
      exact ih b0
    | some p =>
      simp only [List.filterMap_cons, hf, List.filterMap_nil, List.getLast?_concat]
      rfl

theorem foldl_castleWK (l : List Fact) :
    ∀ b0 : Board, (l.foldl apply_fact b0).castleWK = (b0.castleWK || l.any sets_wk) := by
  induction l using List.reverseRecOn with
  | nil => intro b0; simp
  | append_singleton l f ih =>
    intro b0
    rw [List.foldl_concat, apply_fact_castleWK, ih b0, List.any_append]
    simp [Bool.or_assoc]

theorem foldl_castleWQ (l : List Fact) :
    ∀ b0 : Board, (l.foldl apply_fact b0).castleWQ = (b0.castleWQ || l.any sets_wq) := by
  induction l using List.reverseRecOn with
  | nil => intro b0; simp
  | append_singleton l f ih =>
    intro b0
    rw [List.foldl_concat, apply_fact_castleWQ, ih b0, List.any_append]
    simp [Bool.or_assoc]

theorem foldl_castleBK (l : List Fact) :
    ∀ b0 : Board, (l.foldl apply_fact b0).castleBK = (b0.castleBK || l.any sets_bk) := by
  induction l using List.reverseRecOn with
  | nil => intro b0; simp
  | append_singleton l f ih =>
    intro b0
    rw [List.foldl_concat, apply_fact_castleBK, ih b0, List.any_append]
    simp [Bool.or_assoc]

theorem foldl_castleBQ (l : List Fact) :
    ∀ b0 : Board, (l.foldl apply_fact b0).castleBQ = (b0.castleBQ || l.any sets_bq) := by
  induction l using List.reverseRecOn with
  | nil => intro b0; simp
  | append_singleton l f ih =>
    intro b0
    rw [List.foldl_concat, apply_fact_castleBQ, ih b0, List.any_append]
    simp [Bool.or_assoc]

/-! ### What the encoder's fact list contains, per observation -/

theorem parse_piece_piece_name (pt : PieceType) :
    parse_piece (piece_name pt) = some pt := by
  cases pt <;> rfl

theorem convert_side_to_bool_convert_side (c : Bool) :
    convert_side_to_bool (convert_side c) = c := by
  cases c <;> rfl

theorem piece_eta (p : Piece) : (⟨p.piece_type, p.color⟩ : Piece) = p := rfl

/-- A `filterMap` that can only fire at one point of a duplicate-free list
collects exactly that point's output. -/
theorem filterMap_single_point {α β : Type _} [DecidableEq α] (x : α) (o : Option β) :
    ∀ L : List α, L.Nodup → x ∈ L →
      L.filterMap (fun y => if y = x then o else none) = o.toList := by
  intro L
  induction L with
  | nil => intro _ h; exact absurd h (List.not_mem_nil x)
  | cons a L ih =>
    intro hnd hmem
    by_cases ha : a = x
    · subst ha
      have hnotin : a ∉ L := (List.nodup_cons.mp hnd).1
      have hL : L.filterMap (fun y => if y = a then o else none) = [] :=
        List.filterMap_eq_nil_iff.mpr (fun y hy => by
          rw [if_neg]
          intro h
          exact hnotin (h ▸ hy))
      cases o with
      | none => simp [List.filterMap_cons, hL]
      | some v => simp [List.filterMap_cons, hL]
    · have hx : x ∈ L := by
        cases List.mem_cons.mp hmem with
        | inl h => exact absurd h.symm ha
        | inr h => exact h
      have := ih (List.nodup_cons.mp hnd).2 hx
      simp [List.filterMap_cons, if_neg ha, this]

/-- The encoder's fact list holds exactly one `turn` fact, naming the side to
move. -/
theorem encode_filterMap_turn (b : Board) :
    (fen_to_contents b).filterMap fact_turn_side = [convert_side b.turn] := by
  unfold fen_to_contents
  simp only [List.filterMap_append]
  have h1 : ((List.finRange 64).filterMap (fun square =>
      (b.pieceAt square).map (fun piece =>
        Fact.contents (convert_side piece.color) (piece_name piece.piece_type)
          (square.val % 8 + 1) (square.val / 8 + 1)))).filterMap fact_turn_side = [] := by
    rw [List.filterMap_filterMap]
    exact List.filterMap_eq_nil_iff.mpr (fun sq _ => by cases b.pieceAt sq <;> rfl)
  have h2 : List.filterMap fact_turn_side [Fact.turn (convert_side b.turn)] =
      [convert_side b.turn] := rfl
  rw [h1, h2]
  cases b.castleWK <;> cases b.castleWQ <;> cases b.castleBK <;> cases b.castleBQ <;> rfl

/-- The encoder's fact list writes onto square `sq` exactly the piece that the
encoded board holds there (and nothing when `sq` is empty). -/
theorem encode_filterMap_sets (b : Board) (sq : Fin 64) :
    (fen_to_contents b).filterMap (fact_sets sq) = (b.pieceAt sq).toList := by
  unfold fen_to_contents
  simp only [List.filterMap_append]
  have h2 : List.filterMap (fact_sets sq) [Fact.turn (convert_side b.turn)] = [] := rfl
  have h1 : ((List.finRange 64).filterMap (fun square =>
      (b.pieceAt square).map (fun piece =>
        Fact.contents (convert_side piece.color) (piece_name piece.piece_type)
          (square.val % 8 + 1) (square.val / 8 + 1)))).filterMap (fact_sets sq) =
      (b.pieceAt sq).toList := by
    rw [List.filterMap_filterMap]
    have hfun : ∀ sq' ∈ List.finRange 64,
        ((b.pieceAt sq').map (fun piece =>
          Fact.contents (convert_side piece.color) (piece_name piece.piece_type)
            (sq'.val % 8 + 1) (sq'.val / 8 + 1))).bind (fact_sets sq) =
        (fun y => if y = sq then b.pieceAt sq else none) sq' := by
      intro sq' _
      cases hp : b.pieceAt sq' with
      | none =>
        simp only [Option.map_none', Option.none_bind]
        by_cases heq : sq' = sq
        · rw [if_pos heq, ← heq, hp]
        · rw [if_neg heq]
      | some piece =>
        simp only [Option.map_some', Option.some_bind]
        show fact_sets sq (Fact.contents (convert_side piece.color)
          (piece_name piece.piece_type) (sq'.val % 8 + 1) (sq'.val / 8 + 1)) = _
        have htgt : (sq'.val / 8 + 1 - 1) * 8 + (sq'.val % 8 + 1 - 1) = sq'.val := by
          omega
        simp only [fact_sets, parse_piece_piece_name, htgt,
          convert_side_to_bool_convert_side, piece_eta]
        by_cases heq : sq' = sq
        · rw [if_pos ((Fin.val_eq_val sq' sq).mpr heq), if_pos heq, ← heq, hp]
        · rw [if_neg (fun h => heq (Fin.ext h)), if_neg heq]
    rw [List.filterMap_congr hfun]
    exact filterMap_single_point sq (b.pieceAt sq) (List.finRange 64)
      (List.nodup_finRange 64) (List.mem_finRange sq)
  rw [h1, h2]
  have h3 : ∀ o : Option Piece, o.toList ++ [] ++
      (List.filterMap (fact_sets sq) (if b.castleWK then [Fact.kingside_castle "white"] else []) ++
        List.filterMap (fact_sets sq) (if b.castleWQ then [Fact.queenside_castle "white"] else []) ++
        List.filterMap (fact_sets sq) (if b.castleBK then [Fact.kingside_castle "black"] else []) ++
        List.filterMap (fact_sets sq) (if b.castleBQ then [Fact.queenside_castle "black"] else [])) =
      o.toList := by
    intro o
    cases b.castleWK <;> cases b.castleWQ <;> cases b.castleBK <;> cases b.castleBQ <;>
      simp [fact_sets]
  exact h3 (b.pieceAt sq)

/-- Reduce `any` over the encoder's fact list to `any` over its castling
suffix, for predicates that ignore `contents` and `turn` facts. -/
theorem encode_any_castle (b : Board) (g : Fact → Bool)
    (hgc : ∀ s p c r, g (Fact.contents s p c r) = false)
    (hgt : ∀ s, g (Fact.turn s) = false) :
    (fen_to_contents b).any g =
      (((if b.castleWK then [Fact.kingside_castle "white"] else []) ++
        (if b.castleWQ then [Fact.queenside_castle "white"] else []) ++
        (if b.castleBK then [Fact.kingside_castle "black"] else []) ++
        (if b.castleBQ then [Fact.queenside_castle "black"] else []))).any g := by
  unfold fen_to_contents
  simp only [List.any_append]
  have h1 : ((List.finRange 64).filterMap (fun square =>
      (b.pieceAt square).map (fun piece =>
        Fact.contents (convert_side piece.color) (piece_name piece.piece_type)
          (square.val % 8 + 1) (square.val / 8 + 1)))).any g = false := by
    rw [List.any_eq_false]
    intro x hx
    obtain ⟨sq', _, hsq⟩ := List.mem_filterMap.mp hx
    cases hp : b.pieceAt sq' with
    | none => rw [hp] at hsq; exact Option.noConfusion hsq
    | some piece =>
      rw [hp] at hsq
      have : x = Fact.contents (convert_side piece.color) (piece_name piece.piece_type)
          (sq'.val % 8 + 1) (sq'.val / 8 + 1) := (Option.some_inj.mp hsq).symm
      rw [this, hgc]
      exact Bool.false_ne_true
  have h2 : [Fact.turn (convert_side b.turn)].any g = false := by
    simp [hgt]
  rw [h1, h2]
  simp

theorem encode_any_wk (b : Board) : (fen_to_contents b).any sets_wk = b.castleWK := by
  rw [encode_any_castle b sets_wk (fun _ _ _ _ => rfl) (fun _ => rfl)]
  cases b.castleWK <;> cases b.castleWQ <;> cases b.castleBK <;> cases b.castleBQ <;> rfl

theorem encode_any_wq (b : Board) : (fen_to_contents b).any sets_wq = b.castleWQ := by
  rw [encode_any_castle b sets_wq (fun _ _ _ _ => rfl) (fun _ => rfl)]
  cases b.castleWK <;> cases b.castleWQ <;> cases b.castleBK <;> cases b.castleBQ <;> rfl

theorem encode_any_bk (b : Board) : (fen_to_contents b).any sets_bk = b.castleBK := by
  rw [encode_any_castle b sets_bk (fun _ _ _ _ => rfl) (fun _ => rfl)]
  cases b.castleWK <;> cases b.castleWQ <;> cases b.castleBK <;> cases b.castleBQ <;> rfl

theorem encode_any_bq (b : Board) : (fen_to_contents b).any sets_bq = b.castleBQ := by
  rw [encode_any_castle b sets_bq (fun _ _ _ _ => rfl) (fun _ => rfl)]
  cases b.castleWK <;> cases b.castleWQ <;> cases b.castleBK <;> cases b.castleBQ <;> rfl

/-- `any` only depends on membership, so it transfers along permutations. -/
theorem perm_any_congr {l₁ l₂ : List Fact} (h : l₁.Perm l₂) (g : Fact → Bool) :
    l₁.any g = l₂.any g := by
  cases h2 : l₂.any g with
  | true =>
    obtain ⟨x, hx, hgx⟩ := List.any_eq_true.mp h2
    exact List.any_eq_true.mpr ⟨x, h.mem_iff.mpr hx, hgx⟩
  | false =>
    rw [List.any_eq_false] at h2
    exact List.any_eq_false.mpr (fun x hx => h2 x (h.mem_iff.mp hx))

/-- C5: for every board, decoding any reordering of the fact list produced by
the encoder (`convert_pos_to_board` applied to the facts emitted by
`fen_to_contents`) yields a board with the same piece occupancy on every
square, the same side to move, and the same four castling-rights flags. -/
theorem decode_encode_round_trip (b : Board) (l : List Fact)
    (hperm : l.Perm (fen_to_contents b)) :
    (∀ sq : Fin 64, (convert_pos_to_board l).pieceAt sq = b.pieceAt sq) ∧
    (convert_pos_to_board l).turn = b.turn ∧
    (convert_pos_to_board l).castleWK = b.castleWK ∧
    (convert_pos_to_board l).castleWQ = b.castleWQ ∧
    (convert_pos_to_board l).castleBK = b.castleBK ∧
    (convert_pos_to_board l).castleBQ = b.castleBQ := by
  refine ⟨?_, ?_, ?_, ?_, ?_, ?_⟩
  · intro sq
    unfold convert_pos_to_board
    rw [foldl_pieceAt sq l emptyBoard]
    have hp := hperm.filterMap (fact_sets sq)
    rw [encode_filterMap_sets] at hp
    cases ho : b.pieceAt sq with
    | none =>
      rw [ho] at hp
      rw [List.Perm.eq_nil hp]
      rfl
    | some p =>
      rw [ho] at hp
      rw [List.perm_singleton.mp hp]
      rfl
  · unfold convert_pos_to_board
    rw [foldl_turn]
    have hp := hperm.filterMap fact_turn_side
    rw [encode_filterMap_turn] at hp
    rw [List.perm_singleton.mp hp]
    exact convert_side_to_bool_convert_side b.turn
  · unfold convert_pos_to_board
    rw [foldl_castleWK, perm_any_congr hperm sets_wk, encode_any_wk]
    rfl
  · unfold convert_pos_to_board
    rw [foldl_castleWQ, perm_any_congr hperm sets_wq, encode_any_wq]
    rfl
  · unfold convert_pos_to_board
    rw [foldl_castleBK, perm_any_congr hperm sets_bk, encode_any_bk]
    rfl
  · unfold convert_pos_to_board
    rw [foldl_castleBQ, perm_any_congr hperm sets_bq, encode_any_bq]
    rfl

/-- Witness for C5 at a concrete input: the standard opening position, with
the fact list handed to the decoder in reversed order. -/
theorem decode_encode_round_trip_witness :
    ((fen_to_contents stdBoard).reverse).Perm (fen_to_contents stdBoard) ∧
    ((∀ sq : Fin 64,
        (convert_pos_to_board ((fen_to_contents stdBoard).reverse)).pieceAt sq =
          stdBoard.pieceAt sq) ∧
      (convert_pos_to_board ((fen_to_contents stdBoard).reverse)).turn = stdBoard.turn ∧
      (convert_pos_to_board ((fen_to_contents stdBoard).reverse)).castleWK = stdBoard.castleWK ∧
      (convert_pos_to_board ((fen_to_contents stdBoard).reverse)).castleWQ = stdBoard.castleWQ ∧
      (convert_pos_to_board ((fen_to_contents stdBoard).reverse)).castleBK = stdBoard.castleBK ∧
      (convert_pos_to_board ((fen_to_contents stdBoard).reverse)).castleBQ = stdBoard.castleBQ) :=
  ⟨List.reverse_perm _,
    decode_encode_round_trip stdBoard ((fen_to_contents stdBoard).reverse)
      (List.reverse_perm _)⟩

/-! ### Fact counts (C6) -/

/-- Whether a fact is a `contents` predicate. -/
def is_contents_fact : Fact → Bool
  | .contents _ _ _ _ => true
  | _ => false

/-- Whether a fact is a `turn` predicate. -/
def is_turn_fact : Fact → Bool
  | .turn _ => true
  | _ => false

/-- Whether a fact is a castling predicate. -/
def is_castle_fact : Fact → Bool
  | .kingside_castle _ => true
  | .queenside_castle _ => true
  | _ => false

/-- The number of occupied squares of a board. -/
def num_occupied (b : Board) : Nat :=
  ((List.finRange 64).filter (fun sq => (b.pieceAt sq).isSome)).length

/-- A `filterMap` built from `Option.map` keeps exactly the `isSome` points. -/
theorem length_filterMap_option_map {α β γ : Type _} (f : α → Option β) (g : α → β → γ) :
    ∀ L : List α,
      (L.filterMap (fun a => (f a).map (g a))).length =
        (L.filter (fun a => (f a).isSome)).length := by
  intro L
  induction L with
  | nil => rfl
  | cons a L ih =>
    cases hf : f a <;>
      simp [List.filterMap_cons, List.filter_cons, hf, ih]

/-- C6: for every position the encoder emits exactly one `contents` fact per
occupied square (none for empty squares), exactly one `turn` fact, and one
castling fact per held right; on the standard opening position this gives
32 + 1 + 4 = 37 facts. -/
theorem fen_to_contents_fact_counts :
    (∀ b : Board,
      (fen_to_contents b).countP is_contents_fact = num_occupied b ∧
      (fen_to_contents b).countP is_turn_fact = 1 ∧
      (fen_to_contents b).countP is_castle_fact =
        b.castleWK.toNat + b.castleWQ.toNat + b.castleBK.toNat + b.castleBQ.toNat) ∧
    (fen_to_contents stdBoard).countP is_contents_fact = 32 ∧
    (fen_to_contents stdBoard).countP is_turn_fact = 1 ∧
    (fen_to_contents stdBoard).countP is_castle_fact = 4 ∧
    (fen_to_contents stdBoard).length = 37 := by
  constructor
  · intro b
    unfold fen_to_contents
    simp only [List.countP_append]
    have hshape : ∀ x ∈ (List.finRange 64).filterMap (fun square =>
        (b.pieceAt square).map (fun piece =>
          Fact.contents (convert_side piece.color) (piece_name piece.piece_type)
            (square.val % 8 + 1) (square.val / 8 + 1))),
        ∃ s p c r, x = Fact.contents s p c r := by
      intro x hx
      obtain ⟨sq', _, hsq⟩ := List.mem_filterMap.mp hx
      cases hp : b.pieceAt sq' with
      | none => rw [hp] at hsq; exact Option.noConfusion hsq
      | some piece =>
        rw [hp] at hsq
        exact ⟨_, _, _, _, (Option.some_inj.mp hsq).symm⟩
    refine ⟨?_, ?_, ?_⟩
    · have h1 : ((List.finRange 64).filterMap (fun square =>
          (b.pieceAt square).map (fun piece =>
            Fact.contents (convert_side piece.color) (piece_name piece.piece_type)
              (square.val % 8 + 1) (square.val / 8 + 1)))).countP is_contents_fact =
          num_occupied b := by
        rw [List.countP_eq_length.mpr (fun x hx => by
          obtain ⟨sp, pp, cc, rr, hx'⟩ := hshape x hx
          rw [hx']
          rfl),
          length_filterMap_option_map (fun sq => b.pieceAt sq)]
        rfl
      have h2 : List.countP is_contents_fact [Fact.turn (convert_side b.turn)] = 0 := rfl
      rw [h1, h2]
      cases b.castleWK <;> cases b.castleWQ <;> cases b.castleBK <;> cases b.castleBQ <;>
        simp [is_contents_fact]
    · have h1 : ((List.finRange 64).filterMap (fun square =>
          (b.pieceAt square).map (fun piece =>
            Fact.contents (convert_side piece.color) (piece_name piece.piece_type)
              (square.val % 8 + 1) (square.val / 8 + 1)))).countP is_turn_fact = 0 := by
        rw [List.countP_eq_zero]
        intro x hx
        obtain ⟨sp, pp, cc, rr, hx'⟩ := hshape x hx
        rw [hx']
        simp [is_turn_fact]
      have h2 : List.countP is_turn_fact [Fact.turn (convert_side b.turn)] = 1 := rfl
      rw [h1, h2]
      cases b.castleWK <;> cases b.castleWQ <;> cases b.castleBK <;> cases b.castleBQ <;> rfl
    · have h1 : ((List.finRange 64).filterMap (fun square =>
          (b.pieceAt square).map (fun piece =>
            Fact.contents (convert_side piece.color) (piece_name piece.piece_type)
              (square.val % 8 + 1) (square.val / 8 + 1)))).countP is_castle_fact = 0 := by
        rw [List.countP_eq_zero]
        intro x hx
        obtain ⟨sp, pp, cc, rr, hx'⟩ := hshape x hx
        rw [hx']
        simp [is_castle_fact]
      have h2 : List.countP is_castle_fact [Fact.turn (convert_side b.turn)] = 0 := rfl
      rw [h1, h2]
      cases b.castleWK <;> cases b.castleWQ <;> cases b.castleBK <;> cases b.castleBQ <;> rfl
  · exact ⟨by rfl, by rfl, by rfl, by rfl⟩

/-! ## Tactic Matcher (`get_tactic_match` from `metrics.py`)

The shared SWI-Prolog database is modelled as an explicit list of clauses:
the candidate rule asserted by `prolog.assertz(text)` and the ground
`legal_move(from, to, position)` facts asserted for the current position.
`board.legal_moves` is computed by the external chess library, so the legal
moves enter as an input list; the outcome of the time-limited query
(`prolog.query('call_with_time_limit(...)', maxresult=limit)`) is an input as
well: `none` models the `PrologError` raised on timeout, `some rs` the list
of `{From, To}` solution bindings (at most `limit` of them). -/

/-- `chess.square_name`: file letter (a–h) followed by rank digit (1–8). -/
def square_name (sq : Nat) : String :=
  (["a", "b", "c", "d", "e", "f", "g", "h"].getD (sq % 8) "") ++
    (["1", "2", "3", "4", "5", "6", "7", "8"].getD (sq / 8) "")

/-- `chess.parse_square`: the index of the name in the square-name table.
(Python raises `ValueError` for a name that is no square; such a call is
outside every modelled path and defaults to square 0 here.) -/
def parse_square (name : String) : Nat :=
  ((List.range 64).find? (fun i => square_name i = name)).getD 0

/-- Render one predicate the way `fen_to_contents` formats it. -/
def fact_to_string : Fact → String
  | .contents side piece col row => s!"contents({side}, {piece}, {col}, {row})"
  | .turn side => s!"turn({side})"
  | .kingside_castle side => s!"kingside_castle({side})"
  | .queenside_castle side => s!"queenside_castle({side})"

/-- The string that the source\'s `fen_to_contents` actually returns:
`'[' + ', '.join(board_str_list) + ']'`. -/
def fen_to_contents_str (board : Board) : String :=
  "[" ++ String.intercalate ", " ((fen_to_contents board).map fact_to_string) ++ "]"

/-- A clause of the shared Prolog database, as asserted by
`get_tactic_match`: the candidate rule text, or one ground
`legal_move(from, to, position)` fact. -/
inductive Clause where
  | rule (text : String)
  | legal_move (fromSq toSq pos : String)
  deriving DecidableEq, Repr

/-- `prolog.retract(text)`: remove the first database clause equal to the
given rule. -/
def retract_rule : List Clause → String → List Clause
  | [], _ => []
  | Clause.rule t :: rest, text =>
    if t = text then rest else Clause.rule t :: retract_rule rest text
  | c :: rest, text => c :: retract_rule rest text

/-- Whether a clause is a `legal_move` fact. -/
def is_legal_move_clause : Clause → Bool
  | .legal_move _ _ _ => true
  | _ => false

/-- `prolog.retractall('legal_move(_, _, _)')`: drop every `legal_move` fact. -/
def retractall_legal_move (db : List Clause) : List Clause :=
  db.filter (fun c => !is_legal_move_clause c)

/-- `get_tactic_match(prolog, text, board, limit, time_limit_sec)` from
`metrics.py`. Asserts the rule, then one `legal_move` fact per legal move of
the position; on `PrologError` (timeout, `queryOutcome = none`) it returns
`(None, None)` at once — before the `retract`/`retractall` lines; otherwise
it classifies the results (empty ⇒ `(False, None)`, else `True` plus the
solutions converted through `chess.parse_square`/`chess.Move`), retracts the
rule, retracts all `legal_move` facts, and returns. The returned triple is
(database after the call, match flag, suggestions); `time_limit_sec` only
parameterizes the query the oracle answers. -/
def get_tactic_match (db : List Clause) (text : String) (board : Board)
    (legalMoves : List Move) (queryOutcome : Option (List (String × String)))
    (limit : Nat) (_time_limit_sec : Nat) :
    List Clause × Option Bool × Option (List Move) :=
  let position := fen_to_contents_str board
  let db := db ++ [Clause.rule text]
  let db := db ++ legalMoves.map (fun mv =>
    Clause.legal_move (square_name mv.fromSq) (square_name mv.toSq) position)
  match queryOutcome with
  | none => (db, none, none)
  | some rs =>
    let results := rs.take limit
    let ms :=
      if results.isEmpty then ((false : Bool), (none : Option (List Move)))
      else (true, some (results.map (fun r => Move.mk (parse_square r.1) (parse_square r.2))))
    let db := retract_rule db text
    let db := retractall_legal_move db
    (db, some ms.1, ms.2)

/-- C1 (code bug): the timeout path returns before the cleanup, so the shared
database does NOT return to its pre-call state: starting from an empty
database, a call that times out leaves the candidate rule and the asserted
`legal_move` fact (here: e2–e4 on the standard opening position) behind. -/
theorem get_tactic_match_timeout_leaves_database_dirty :
    (get_tactic_match [] "f(Pos, From, To) :- legal_move(From, To, Pos)" stdBoard
        [⟨12, 28⟩] none 3 5).1 =
      [Clause.rule "f(Pos, From, To) :- legal_move(From, To, Pos)",
       Clause.legal_move (square_name 12) (square_name 28) (fen_to_contents_str stdBoard)] ∧
    (get_tactic_match [] "f(Pos, From, To) :- legal_move(From, To, Pos)" stdBoard
        [⟨12, 28⟩] none 3 5).1 ≠ [] := by
  have h : (get_tactic_match [] "f(Pos, From, To) :- legal_move(From, To, Pos)" stdBoard
      [⟨12, 28⟩] none 3 5).1 =
      [Clause.rule "f(Pos, From, To) :- legal_move(From, To, Pos)",
       Clause.legal_move (square_name 12) (square_name 28) (fen_to_contents_str stdBoard)] := rfl
  exact ⟨h, by rw [h]; exact List.cons_ne_nil _ _⟩

/-- `retract` removes exactly the appended rule when the rule is not already
in the database. -/
theorem retract_rule_append {text : String} {rest : List Clause} :
    ∀ db : List Clause, Clause.rule text ∉ db →
      retract_rule (db ++ Clause.rule text :: rest) text = db ++ rest := by
  intro db
  induction db with
  | nil =>
    intro _
    simp [retract_rule]
  | cons c db ih =>
    intro hnot
    have hc : c ≠ Clause.rule text := fun h => hnot (h ▸ List.mem_cons_self c db)
    have hdb : Clause.rule text ∉ db := fun h => hnot (List.mem_cons_of_mem c h)
    cases c with
    | rule t =>
      have ht : t ≠ text := fun h => hc (by rw [h])
      simp only [List.cons_append, retract_rule, if_neg ht, List.append_eq, ih hdb]
    | legal_move f t p =>
      simp only [List.cons_append, retract_rule, List.append_eq, ih hdb]

/-- On the two completed-query paths (no-match and matched), a database that
held no `legal_move` fact and not the candidate rule is restored exactly:
the cleanup really does run there, which is what makes the missing cleanup on
the timeout path a slip rather than a design choice. -/
theorem get_tactic_match_cleanup_on_completion (db : List Clause) (text : String)
    (board : Board) (legalMoves : List Move) (rs : List (String × String))
    (limit tl : Nat) (hrule : Clause.rule text ∉ db)
    (hlm : ∀ c ∈ db, is_legal_move_clause c = false) :
    (get_tactic_match db text board legalMoves (some rs) limit tl).1 = db := by
  unfold get_tactic_match
  simp only
  rw [List.append_assoc, List.singleton_append, retract_rule_append db hrule]
  unfold retractall_legal_move
  rw [List.filter_append]
  have h1 : db.filter (fun c => !is_legal_move_clause c) = db :=
    List.filter_eq_self.mpr (fun c hc => by rw [hlm c hc]; rfl)
  have h2 : (legalMoves.map (fun mv => Clause.legal_move (square_name mv.fromSq)
      (square_name mv.toSq) (fen_to_contents_str board))).filter
        (fun c => !is_legal_move_clause c) = [] := by
    rw [List.filter_eq_nil_iff]
    intro c hc
    obtain ⟨mv, _, hmv⟩ := List.mem_map.mp hc
    rw [← hmv]
    simp [is_legal_move_clause]
  rw [h1, h2, List.append_nil]

/-- Witness for the cleanup theorem at a concrete input. -/
theorem get_tactic_match_cleanup_on_completion_witness :
    (get_tactic_match [] "f(A, B, C) :- legal_move(B, C, A)" stdBoard [⟨12, 28⟩]
      (some [("e2", "e4")]) 3 5).1 = [] :=
  get_tactic_match_cleanup_on_completion [] "f(A, B, C) :- legal_move(B, C, A)" stdBoard
    [⟨12, 28⟩] [("e2", "e4")] 3 5 (by simp) (by simp)

/-- C10: whenever `get_tactic_match` reports a match (`match == True`) the
suggestion list is present and non-empty; whenever it does not report a match
(no-match `False` or timeout `None`), the suggestions are `None`. -/
theorem get_tactic_match_match_iff_suggestions (db : List Clause) (text : String)
    (board : Board) (legalMoves : List Move)
    (outcome : Option (List (String × String))) (limit tl : Nat) :
    ((get_tactic_match db text board legalMoves outcome limit tl).2.1 = some true →
      ∃ l, (get_tactic_match db text board legalMoves outcome limit tl).2.2 = some l ∧
        l ≠ []) ∧
    ((get_tactic_match db text board legalMoves outcome limit tl).2.1 ≠ some true →
      (get_tactic_match db text board legalMoves outcome limit tl).2.2 = none) := by
  cases outcome with
  | none =>
    constructor
    · intro h
      exact Option.noConfusion (show (none : Option Bool) = some true from h)
    · intro _
      rfl
  | some rs =>
    by_cases hr : (rs.take limit).isEmpty
    · constructor
      · intro h
        simp [get_tactic_match, hr] at h
      · intro _
        simp [get_tactic_match, hr]
    · constructor
      · intro _
        refine ⟨(rs.take limit).map
          (fun r => Move.mk (parse_square r.1) (parse_square r.2)), ?_, ?_⟩
        · simp [get_tactic_match, hr]
        · intro hnil
          have : (rs.take limit) = [] := by
            have := congrArg List.length hnil
            simp only [List.length_map, List.length_nil] at this
            exact List.length_eq_zero.mp this
          rw [this] at hr
          exact hr rfl
      · intro h
        exact absurd (by simp [get_tactic_match, hr] : _) h

/-! ## Per-rule metric loop (`calc_metrics` from `metrics.py`)

`calc_metrics` walks the games of a PGN file and, within each game, the
positions of its mainline. The per-position work that talks to external
processes — `get_tactic_match` against the Prolog engine, `get_evals` and
`get_top_n_moves` against the chess engine — is modelled as data carried by
the position: a game is the list of positions its traversal would visit, and
each position carries the `(match, suggestions)` outcome and the two
evaluation lists. All accumulator bookkeeping, limit checks and the abort on
timeout are translated from the source. -/

/-- What one visited position supplies to `calc_metrics`: the
`(match, suggestions)` pair `get_tactic_match` returns for it
(`result = none` is the timeout), and the evaluation lists `get_evals` and
`get_top_n_moves` would produce for its suggestions. -/
structure PosData where
  result : Option Bool
  suggestions : Option (List Move)
  evals : List (Int × Move)
  tops : List (Int × Move)

/-- The `metrics` accumulator dict of `calc_metrics`. -/
structure Metrics where
  total_games : Nat
  total_positions : Nat
  total_matches : Nat
  dcg : ℝ
  avg : ℝ
  empty_suggestions : Nat
  num_suggestions : Nat

/-- The freshly initialized `metrics` dict of `calc_metrics`. -/
noncomputable def init_metrics : Metrics :=
  ⟨0, 0, 0, 0, 0, 0, 0⟩

/-- The body of the position loop after the timeout check:
`total_positions += 1`; on a match, `total_matches += 1` and — when the
suggestion list is truthy (not `None`, not empty) — `dcg += evaluate(..)`,
`avg += evaluate(..)`, `num_suggestions += len(suggestions)`; otherwise
`empty_suggestions += 1`. -/
noncomputable def update_metrics (m : Metrics) (mt : Bool) (p : PosData) : Metrics :=
  let m := { m with total_positions := m.total_positions + 1 }
  if mt then
    let m := { m with total_matches := m.total_matches + 1 }
    match p.suggestions with
    | some l =>
      if l.isEmpty then m
      else
        { m with
          dcg := m.dcg + evaluate p.evals p.tops dcg_fn
          avg := m.avg + evaluate p.evals p.tops avg_fn
          num_suggestions := m.num_suggestions + l.length }
    | none => m
  else
    { m with empty_suggestions := m.empty_suggestions + 1 }

/-- The inner `while not node.is_end()` loop of `calc_metrics`: a timeout
(`match is None`) returns `None` for the whole rule at once; otherwise the
accumulator is updated, `curr_positions` incremented, and the loop breaks
when `pos_limit` is truthy (non-zero) and reached. -/
noncomputable def process_game (posLimit : Nat) :
    List PosData → Metrics → Nat → Option Metrics
  | [], m, _ => some m
  | p :: ps, m, curr =>
    match p.result with
    | none => none
    | some mt =>
      let m := update_metrics m mt p
      let curr := curr + 1
      if posLimit ≠ 0 ∧ posLimit ≤ curr then some m
      else process_game posLimit ps m curr

/-- The outer `for game in games(...)` loop of `calc_metrics`:
`total_games += 1`, run the position loop (propagating its `None`), and break
when `game_limit` is truthy and reached. -/
noncomputable def process_games (gameLimit posLimit : Nat) :
    List (List PosData) → Metrics → Option Metrics
  | [], m => some m
  | g :: gs, m =>
    let m := { m with total_games := m.total_games + 1 }
    match process_game posLimit g m 0 with
    | none => none
    | some m =>
      if gameLimit ≠ 0 ∧ gameLimit ≤ m.total_games then some m
      else process_games gameLimit posLimit gs m

/-- `calc_metrics` from `metrics.py`: run the loops from a fresh accumulator;
the result is `None` on timeout, and also when no position matched
(`total_matches == 0`). -/
noncomputable def calc_metrics (games : List (List PosData))
    (gameLimit posLimit : Nat) : Option Metrics :=
  match process_games gameLimit posLimit games init_metrics with
  | none => none
  | some m => if 0 < m.total_matches then some m else none

theorem update_metrics_total_games (m : Metrics) (mt : Bool) (p : PosData) :
    (update_metrics m mt p).total_games = m.total_games := by
  cases mt with
  | false => rfl
  | true =>
    cases hs : p.suggestions with
    | none => simp [update_metrics, hs]
    | some l =>
      simp only [update_metrics, hs, if_true]
      split <;> rfl

theorem process_game_total_games (posLimit : Nat) :
    ∀ (g : List PosData) (m : Metrics) (curr : Nat) (m' : Metrics),
      process_game posLimit g m curr = some m' → m'.total_games = m.total_games := by
  intro g
  induction g with
  | nil =>
    intro m curr m' h
    rw [← Option.some_inj.mp h]
  | cons p ps ih =>
    intro m curr m' h
    rw [process_game] at h
    cases hr : p.result with
    | none => rw [hr] at h; exact Option.noConfusion h
    | some mt =>
      rw [hr] at h
      simp only at h
      by_cases hb : posLimit ≠ 0 ∧ posLimit ≤ curr + 1
      · rw [if_pos hb] at h
        rw [← Option.some_inj.mp h, update_metrics_total_games]
      · rw [if_neg hb] at h
        rw [ih (update_metrics m mt p) (curr + 1) m' h, update_metrics_total_games]

/-- The position loop completes (no abort) when every position it visits has
a non-timeout result. -/
theorem process_game_isSome (posLimit : Nat) :
    ∀ (g : List PosData) (curr : Nat) (m : Metrics),
      (posLimit = 0 ∨ curr < posLimit) →
      (∀ q ∈ (if posLimit = 0 then g else g.take (posLimit - curr)), q.result ≠ none) →
      ∃ m', process_game posLimit g m curr = some m' := by
  intro g
  induction g with
  | nil => intro curr m _ _; exact ⟨m, rfl⟩
  | cons p ps ih =>
    intro curr m hreach hclean
    have hp : p ∈ (if posLimit = 0 then p :: ps else (p :: ps).take (posLimit - curr)) := by
      rcases hreach with h0 | hlt
      · rw [if_pos h0]; exact List.mem_cons_self p ps
      · rw [if_neg (by omega)]
        have : posLimit - curr = (posLimit - curr - 1) + 1 := by omega
        rw [this, List.take_succ_cons]
        exact List.mem_cons_self _ _
    cases hr : p.result with
    | none => exact absurd hr (hclean p hp)
    | some mt =>
      rw [process_game, hr]
      simp only
      by_cases hb : posLimit ≠ 0 ∧ posLimit ≤ curr + 1
      · rw [if_pos hb]; exact ⟨_, rfl⟩
      · rw [if_neg hb]
        refine ih (curr + 1) (update_metrics m mt p) (by omega) ?_
        intro q hq
        refine hclean q ?_
        rcases hreach with h0 | hlt
        · rw [if_pos h0] at hq ⊢
          exact List.mem_cons_of_mem p hq
        · rw [if_neg (by omega)] at hq ⊢
          have h1 : posLimit - curr = (posLimit - (curr + 1)) + 1 := by omega
          rw [h1, List.take_succ_cons]
          exact List.mem_cons_of_mem p hq

/-- The position loop aborts with `None` when it reaches a position whose
query timed out. -/
theorem process_game_timeout (posLimit : Nat) (p : PosData) (hto : p.result = none)
    (ps2 : List PosData) :
    ∀ (ps1 : List PosData) (curr : Nat) (m : Metrics),
      (∀ q ∈ ps1, q.result ≠ none) →
      (posLimit = 0 ∨ curr + ps1.length < posLimit) →
      process_game posLimit (ps1 ++ p :: ps2) m curr = none := by
  intro ps1
  induction ps1 with
  | nil =>
    intro curr m _ _
    rw [List.nil_append, process_game, hto]
  | cons q ps ih =>
    intro curr m hclean hreach
    rw [List.cons_append, process_game]
    cases hq : q.result with
    | none => exact absurd hq (hclean q (List.mem_cons_self q ps))
    | some mt =>
      simp only
      have hnb : ¬(posLimit ≠ 0 ∧ posLimit ≤ curr + 1) := by
        rcases hreach with h0 | hlt
        · simp [h0]
        · simp only [List.length_cons] at hlt
          intro hcon
          omega
      rw [if_neg hnb]
      refine ih (curr + 1) (update_metrics m mt q)
        (fun q' hq' => hclean q' (List.mem_cons_of_mem q hq')) ?_
      rcases hreach with h0 | hlt
      · exact Or.inl h0
      · right
        simp only [List.length_cons] at hlt
        omega

/-- The game loop aborts with `None` when it reaches a game containing a
reachable timed-out position. -/
theorem process_games_timeout (gameLimit posLimit : Nat) (ps1 ps2 : List PosData)
    (p : PosData) (hto : p.result = none)
    (hreach_pos : posLimit = 0 ∨ ps1.length < posLimit)
    (hclean_pos : ∀ q ∈ ps1, q.result ≠ none) (gs2 : List (List PosData)) :
    ∀ (gs1 : List (List PosData)) (m : Metrics),
      (gameLimit = 0 ∨ m.total_games + gs1.length < gameLimit) →
      (∀ g ∈ gs1, ∀ q ∈ (if posLimit = 0 then g else g.take posLimit), q.result ≠ none) →
      process_games gameLimit posLimit (gs1 ++ (ps1 ++ p :: ps2) :: gs2) m = none := by
  intro gs1
  induction gs1 with
  | nil =>
    intro m _ _
    rw [List.nil_append, process_games]
    have hinner : process_game posLimit (ps1 ++ p :: ps2)
        { m with total_games := m.total_games + 1 } 0 = none := by
      refine process_game_timeout posLimit p hto ps2 ps1 0 _ hclean_pos ?_
      rcases hreach_pos with h0 | hlt
      · exact Or.inl h0
      · right; omega
    rw [hinner]
  | cons g gs ih =>
    intro m hg hclean
    rw [List.cons_append, process_games]
    have hvisited : ∀ q ∈ (if posLimit = 0 then g else g.take (posLimit - 0)),
        q.result ≠ none := by
      have h0 : posLimit - 0 = posLimit := Nat.sub_zero posLimit
      rw [h0]
      exact hclean g (List.mem_cons_self g gs)
    obtain ⟨m2, hm2⟩ := process_game_isSome posLimit g 0
      { m with total_games := m.total_games + 1 }
      (by rcases Nat.eq_zero_or_pos posLimit with h | h
          · exact Or.inl h
          · exact Or.inr h)
      hvisited
    rw [hm2]
    have htg : m2.total_games = m.total_games + 1 := by
      rw [process_game_total_games posLimit g _ 0 m2 hm2]
    have hnb : ¬(gameLimit ≠ 0 ∧ gameLimit ≤ m2.total_games) := by
      rcases hg with h0 | hlt
      · simp [h0]
      · simp only [List.length_cons] at hlt
        intro hcon
        omega
    simp only
    rw [if_neg hnb]
    refine ih m2 ?_ (fun g' hg' => hclean g' (List.mem_cons_of_mem g hg'))
    rcases hg with h0 | hlt
    · exact Or.inl h0
    · right
      simp only [List.length_cons] at hlt
      omega

/-- C4: when the logic-engine query times out at a position the traversal
actually reaches — after the fully processed games `gs1` (each within the
game limit and with no timeout among its visited positions) and the fully
processed positions `ps1` of the current game (within the position limit) —
`calc_metrics` returns `None` for the whole rule: the accumulated partial
metrics are discarded, there is no retry, and the caller simply moves on to
the next rule. Limits follow Python truthiness: a limit of `0` means "no
limit". -/
theorem calc_metrics_timeout_aborts_rule
    (gs1 gs2 : List (List PosData)) (ps1 ps2 : List PosData) (p : PosData)
    (gameLimit posLimit : Nat)
    (hto : p.result = none)
    (hreach_game : gameLimit = 0 ∨ gs1.length < gameLimit)
    (hclean_games : ∀ g ∈ gs1, ∀ q ∈ (if posLimit = 0 then g else g.take posLimit),
        q.result ≠ none)
    (hreach_pos : posLimit = 0 ∨ ps1.length < posLimit)
    (hclean_pos : ∀ q ∈ ps1, q.result ≠ none) :
    calc_metrics (gs1 ++ (ps1 ++ p :: ps2) :: gs2) gameLimit posLimit = none := by
  unfold calc_metrics
  have h : process_games gameLimit posLimit (gs1 ++ (ps1 ++ p :: ps2) :: gs2)
      init_metrics = none := by
    refine process_games_timeout gameLimit posLimit ps1 ps2 p hto hreach_pos hclean_pos
      gs2 gs1 init_metrics ?_ hclean_games
    rcases hreach_game with h0 | hlt
    · exact Or.inl h0
    · right
      show init_metrics.total_games + gs1.length < gameLimit
      have : init_metrics.total_games = 0 := rfl
      omega
  rw [h]

/-- Witness for C4 at a concrete input: a single game whose first position
times out. -/
theorem calc_metrics_timeout_aborts_rule_witness :
    ({ result := none, suggestions := none, evals := [], tops := [] } : PosData).result =
      none ∧
    calc_metrics [[{ result := none, suggestions := none, evals := [], tops := [] }]]
      10 10 = none :=
  ⟨rfl,
    calc_metrics_timeout_aborts_rule [] []
      [] [] { result := none, suggestions := none, evals := [], tops := [] } 10 10 rfl
      (Or.inr (by decide)) (by simp) (Or.inr (by decide)) (by simp)⟩

end Tactics
